import Mathlib

/-!
Verification of the sweep-and-analysis engine of `sc-bodeplot.py`.

The embedding follows the source: the sample-rate selection loop and the
sweep `while` loop are translated over `ℚ` (exact rational arithmetic in
place of Python floats), the RMS/FFT analyzer over `ℝ`/`ℂ`, and fallible
Python operations (float division by zero raises `ZeroDivisionError`,
an uncaught exception aborts the program) are modelled with `Except`.
-/

namespace Bodeplot

/-- The fixed table of valid sample rates in kilo-samples per second
(`samplerates` tuple in the source, line 78). -/
def samplerates : List ℚ :=
  [20, 32, 50, 64, 100, 128, 200, 500, 1000, 2000, 4000, 8000, 10000]

/-- One iteration of the selection loop body (source lines 130-132):
`if samplerate < samplerate_target: samplerate = sr`. -/
def selStep (t : ℚ) (acc sr : ℚ) : ℚ := if acc < t then sr else acc

/-- The sample-rate selection (source lines 128-132):
`samplerate_target = 4*freq; samplerate = samplerates[0];
for sr in samplerates: if samplerate < samplerate_target: samplerate = sr`. -/
def selectRate (f : ℚ) : ℚ :=
  samplerates.foldl (selStep (4 * f)) (samplerates.headD 0)

/-- Closed form of what the selection loop returns once the accumulator is
below the target: the first table entry at or above the target, or the last
entry when there is none. -/
def selResult (t : ℚ) (l : List ℚ) : ℚ :=
  (l.find? fun x => decide (t ≤ x)).getD (l.getLast?.getD 0)

/-- The sweep loop's frequency sequence (source lines 119, 124, 226):
`freq = fstart; while freq < fstop: ... ; freq = freq*fstep`, with an
explicit fuel bound on the number of iterations unrolled. -/
def sweepFreqs (stop r : ℚ) : ℚ → ℕ → List ℚ
  | _, 0 => []
  | f, n + 1 => if f < stop then f :: sweepFreqs stop r (f * r) n else []

/-- The sweep loop with a fallible per-step action (capture/analyze can raise
`AcquisitionError`); an exception propagates out of the loop uncaught, so the
result on failure is just the error — the accumulated rows in the Python
local `data` die with the process and the post-loop CSV write never runs
(source lines 124-236). -/
def runSweep {α : Type} (step : ℚ → Except String α) (stop r : ℚ) :
    ℚ → ℕ → Except String (List α)
  | _, 0 => Except.ok []
  | f, n + 1 =>
    if f < stop then
      match step f with
      | Except.error e => Except.error e
      | Except.ok a =>
        match runSweep step stop r (f * r) n with
        | Except.error e => Except.error e
        | Except.ok rest => Except.ok (a :: rest)
    else Except.ok []

/-- A step action that succeeds below 40 and then raises `AcquisitionError`
(for a sweep 10, 20, 40, ... this is a failure on the third step). -/
def stepFail3 (f : ℚ) : Except String ℚ :=
  if f < 40 then Except.ok f else Except.error "AcquisitionError"

/-- A step action that raises `AcquisitionError` on the very first step. -/
def stepFail1 : ℚ → Except String ℚ :=
  fun _ => Except.error "AcquisitionError"

/-- Maximum of `x :: l` via a left fold. -/
def listMax {α : Type} [LinearOrder α] (x : α) (l : List α) : α := l.foldl max x

/-- Index of the first occurrence of the maximum of a list, mirroring
`np.argmax` (source lines 190, 208): ties are resolved toward the earliest
index, and the empty list is given index 0 (numpy raises there; the source
always calls it on a non-empty slice). -/
def argmaxIdx {α : Type} [LinearOrder α] : List α → ℕ
  | [] => 0
  | [_] => 0
  | x :: y :: ys => if x < listMax y ys then argmaxIdx (y :: ys) + 1 else 0

noncomputable section Analyzer

/-- The RMS/DC accumulation loop (source lines 160-166): running sums of
`v*v` and `v` together with the element count. -/
def rmsAcc (vs : List ℝ) : ℝ × ℝ × ℕ :=
  vs.foldl (fun st v => (st.1 + v * v, st.2.1 + v, st.2.2 + 1)) ((0 : ℝ), (0 : ℝ), (0 : ℕ))

/-- The per-channel statistic reported as "RMS" by the source (line 167):
`rms = math.sqrt(rms/n) - dc/n` after the accumulation loop. -/
def rmsLoop (vs : List ℝ) : ℝ :=
  Real.sqrt ((rmsAcc vs).1 / ((rmsAcc vs).2.2 : ℝ)) - (rmsAcc vs).2.1 / ((rmsAcc vs).2.2 : ℝ)

/-- Modelled from the spec: the standard AC RMS `sqrt(mean((v - mean v)^2))`,
which §9 of the design notes contrasts with the source's formula. -/
def acRMS (vs : List ℝ) : ℝ :=
  Real.sqrt ((vs.map fun v => (v - vs.sum / (vs.length : ℝ)) ^ 2).sum / (vs.length : ℝ))

/-- The single-fold phase wrap applied to `deltaphase` (source lines 216-220):
subtract `2π` once if the difference exceeds `π`, then add `2π` once if the
(possibly updated) value is below `-π`. -/
def wrapPhase (d : ℝ) : ℝ :=
  let d1 := if d > Real.pi then d - 2 * Real.pi else d
  if d1 < -Real.pi then d1 + 2 * Real.pi else d1

/-- The record append (source line 223):
`data.append([freq, rms1, rms2, rms1/rms2, deltaphase])`. Python float
division raises `ZeroDivisionError` when the denominator is zero, modelled
with `Except`. -/
def appendRecord (freq rms1 rms2 dphase : ℝ) : Except String (List ℝ) :=
  if rms2 = 0 then Except.error "ZeroDivisionError"
  else Except.ok [freq, rms1, rms2, rms1 / rms2, dphase]

/-- The discrete Fourier transform computed by `np.fft.fft` (source lines
180, 198): `X_k = Σ_j v_j · exp(-2πi·j·k/N)`. -/
def dft (v : List ℝ) (k : ℕ) : ℂ :=
  ∑ j in Finset.range v.length,
    ((v.getD j 0 : ℝ) : ℂ) *
      Complex.exp (-2 * (Real.pi : ℂ) * Complex.I * (j : ℂ) * (k : ℂ) / (v.length : ℂ))

/-- The positive-frequency magnitude list (source lines 185, 203):
`np.abs(fft_values)[:N // 2] / N`. -/
def fftMagList (v : List ℝ) : List ℝ :=
  (List.range (v.length / 2)).map fun k => Complex.abs (dft v k) / (v.length : ℝ)

/-- The positive-frequency phase list (source lines 186, 204):
`np.angle(fft_values)[:N // 2]`. -/
def fftPhaseList (v : List ℝ) : List ℝ :=
  (List.range (v.length / 2)).map fun k => Complex.arg (dft v k)

/-- The fundamental bin (source lines 190, 208):
`np.argmax(fft_magnitude[1:]) + 1`, skipping the DC bin. -/
def fundamentalIndex (v : List ℝ) : ℕ := argmaxIdx ((fftMagList v).drop 1) + 1

/-- The recorded fundamental magnitude (source lines 194, 212):
`fft_magnitude[fundamental_index]`. -/
def fundamentalMagnitude (v : List ℝ) : ℝ := (fftMagList v).getD (fundamentalIndex v) 0

/-- The recorded fundamental phase (source lines 195, 213):
`fft_phase[fundamental_index]`. -/
def fundamentalPhase (v : List ℝ) : ℝ := (fftPhaseList v).getD (fundamentalIndex v) 0

end Analyzer

section SelectorLemmas

/-- Once the accumulator has reached the target, the selection loop never
updates it again. -/
theorem foldl_selStep_of_le (t : ℚ) :
    ∀ (l : List ℚ) (acc : ℚ), t ≤ acc → l.foldl (selStep t) acc = acc := by
  intro l
  induction l with
  | nil => intro acc _; rfl
  | cons x xs ih =>
    intro acc h
    simp only [List.foldl_cons, selStep, if_neg (not_lt.mpr h)]
    exact ih acc h

/-- While the accumulator is below the target, the selection loop returns the
first table entry at or above the target, or the last entry when every entry
is below the target. -/
theorem foldl_selStep_of_lt (t : ℚ) :
    ∀ (l : List ℚ), l ≠ [] → ∀ acc : ℚ, acc < t →
      l.foldl (selStep t) acc = selResult t l := by
  intro l
  induction l with
  | nil => intro h; exact absurd rfl h
  | cons x xs ih =>
    intro _ acc hacc
    simp only [List.foldl_cons, selStep, if_pos hacc]
    by_cases hx : t ≤ x
    · rw [foldl_selStep_of_le t xs x hx]
      simp [selResult, List.find?_cons_of_pos, hx]
    · push_neg at hx
      have hx' : ¬(t ≤ x) := not_le.mpr hx
      cases hxs : xs with
      | nil =>
        simp [selResult, List.find?, hx']
      | cons y ys =>
        subst hxs
        have hne : y :: ys ≠ [] := List.cons_ne_nil y ys
        rw [ih hne x hx]
        have hfeq : List.find? (fun z => decide (t ≤ z)) (x :: y :: ys)
            = List.find? (fun z => decide (t ≤ z)) (y :: ys) := by
          simp [hx']
        simp only [selResult, List.getLast?_cons_cons]
        rw [hfeq]

/-- On a list sorted in nondecreasing order, the first entry at or above the
threshold is the least such entry. -/
theorem find?_sorted_min (t : ℚ) :
    ∀ l : List ℚ, l.Pairwise (· ≤ ·) →
      ∀ x, l.find? (fun z => decide (t ≤ z)) = some x →
        ∀ y ∈ l, t ≤ y → x ≤ y := by
  intro l
  induction l with
  | nil => intro _ x hx; simp at hx
  | cons z zs ih =>
    intro hp x hfind y hy hty
    rcases List.pairwise_cons.mp hp with ⟨hz, hp'⟩
    by_cases htz : t ≤ z
    · rw [List.find?_cons_of_pos _ (by simpa using htz)] at hfind
      obtain rfl : z = x := by simpa using hfind
      rcases List.mem_cons.mp hy with rfl | hy'
      · exact le_refl y
      · exact hz y hy'
    · rw [List.find?_cons_of_neg _ (by simpa using htz)] at hfind
      rcases List.mem_cons.mp hy with rfl | hy'
      · exact absurd hty htz
      · exact ih hp' x hfind y hy' hty

end SelectorLemmas

/-- C1 (counterexample): at `target_frequency = 10` the table has entries on
both sides of `4*10 = 40`, the largest entry strictly below 40 is 32, yet the
selection loop returns 50, so the claimed "largest table entry strictly below
4*target_frequency" rule is false of the code. -/
theorem selectRate_cex :
    (∃ x ∈ samplerates, x < 4 * 10) ∧ (∃ x ∈ samplerates, ¬x < 4 * 10) ∧
    32 ∈ samplerates ∧ (∀ x ∈ samplerates, x < 4 * 10 → x ≤ 32) ∧
    selectRate 10 = 50 ∧ selectRate 10 ≠ 32 :=
  ⟨⟨20, by norm_num [samplerates], by norm_num⟩,
   ⟨50, by norm_num [samplerates], by norm_num⟩,
   by norm_num [samplerates],
   by norm_num [samplerates],
   by norm_num [selectRate, samplerates, selStep],
   by norm_num [selectRate, samplerates, selStep]⟩

/-- C1 (amended): for every target frequency, the selection loop returns a
table entry; when some table entry is at least `4*target_frequency`, it
returns the smallest such entry (in particular the lowest entry when every
entry is at least the target), and when every entry is below
`4*target_frequency` it returns the table's highest entry, 10000. -/
theorem selectRate_spec (f : ℚ) :
    selectRate f ∈ samplerates ∧
    ((∃ x ∈ samplerates, 4 * f ≤ x) →
      4 * f ≤ selectRate f ∧ ∀ y ∈ samplerates, 4 * f ≤ y → selectRate f ≤ y) ∧
    ((∀ x ∈ samplerates, x < 4 * f) → selectRate f = 10000) := by
  have hsorted : samplerates.Pairwise (· ≤ ·) := by decide
  rcases le_or_lt (4 * f) 20 with h20 | h20
  · have hsel : selectRate f = 20 := by
      have h0 : samplerates.headD 0 = 20 := rfl
      rw [selectRate, h0]
      exact foldl_selStep_of_le (4 * f) samplerates 20 h20
    refine ⟨by rw [hsel]; norm_num [samplerates], fun _ => ⟨by rw [hsel]; exact h20, ?_⟩, ?_⟩
    · intro y hy _
      rw [hsel]
      have hmin : ∀ y ∈ samplerates, (20 : ℚ) ≤ y := by decide
      exact hmin y hy
    · intro hall
      exact absurd (hall 20 (by norm_num [samplerates])) (not_lt.mpr h20)
  · have hne : samplerates ≠ [] := by simp [samplerates]
    have hsel : selectRate f = selResult (4 * f) samplerates := by
      have h0 : samplerates.headD 0 = 20 := rfl
      rw [selectRate, h0]
      exact foldl_selStep_of_lt (4 * f) samplerates hne 20 h20
    cases hfind : samplerates.find? (fun z => decide (4 * f ≤ z)) with
    | some x =>
      have hx_mem : x ∈ samplerates := List.mem_of_find?_eq_some hfind
      have hx_ge : 4 * f ≤ x := by simpa using List.find?_some hfind
      have hres : selResult (4 * f) samplerates = x := by
        rw [selResult, hfind]; rfl
      refine ⟨by rw [hsel, hres]; exact hx_mem, fun _ => ⟨?_, ?_⟩, ?_⟩
      · rw [hsel, hres]; exact hx_ge
      · intro y hy hty
        rw [hsel, hres]
        exact find?_sorted_min (4 * f) samplerates hsorted x hfind y hy hty
      · intro hall
        exact absurd hx_ge (not_le.mpr (hall x hx_mem))
    | none =>
      have hres : selResult (4 * f) samplerates = 10000 := by
        rw [selResult, hfind]; rfl
      have hnone : ∀ y ∈ samplerates, ¬4 * f ≤ y := by
        intro y hy
        simpa using List.find?_eq_none.mp hfind y hy
      refine ⟨by rw [hsel, hres]; norm_num [samplerates], ?_, fun _ => by rw [hsel, hres]⟩
      rintro ⟨x, hx, htx⟩
      exact absurd htx (hnone x hx)

/-- Witness for C1: at `target_frequency = 10`, the amended rule yields a
rate at least `40` and at most the entry `50`. -/
theorem selectRate_spec_witness :
    4 * (10 : ℚ) ≤ selectRate 10 ∧ selectRate 10 ≤ 50 :=
  ⟨((selectRate_spec 10).2.1 ⟨50, by norm_num [samplerates], by norm_num⟩).1,
   ((selectRate_spec 10).2.1 ⟨50, by norm_num [samplerates], by norm_num⟩).2 50
     (by norm_num [samplerates]) (by norm_num)⟩

section SweepLemmas

/-- A sweep whose start frequency already reaches the stop bound runs zero
iterations, for any fuel. -/
theorem sweepFreqs_nil_of_le (stop r f : ℚ) (h : stop ≤ f) :
    ∀ n : ℕ, sweepFreqs stop r f n = [] := by
  intro n
  cases n with
  | zero => rfl
  | succ n => simp [sweepFreqs, not_lt.mpr h]

/-- The `k`-th emitted frequency is `f * r ^ k`. -/
theorem sweepFreqs_getD (stop r : ℚ) :
    ∀ (n : ℕ) (f : ℚ) (k : ℕ), k < (sweepFreqs stop r f n).length →
      (sweepFreqs stop r f n).getD k 0 = f * r ^ k := by
  intro n
  induction n with
  | zero => intro f k hk; simp [sweepFreqs] at hk
  | succ n ih =>
    intro f k hk
    by_cases hf : f < stop
    · simp only [sweepFreqs, if_pos hf] at hk ⊢
      cases k with
      | zero => simp
      | succ k =>
        simp only [List.getD_cons_succ, List.length_cons, Nat.succ_lt_succ_iff] at hk ⊢
        rw [ih (f * r) k hk]
        ring
    · simp [sweepFreqs, if_neg hf] at hk

/-- Every emitted frequency is strictly below the stop bound. -/
theorem sweepFreqs_mem_lt (stop r : ℚ) :
    ∀ (n : ℕ) (f x : ℚ), x ∈ sweepFreqs stop r f n → x < stop := by
  intro n
  induction n with
  | zero => intro f x hx; simp [sweepFreqs] at hx
  | succ n ih =>
    intro f x hx
    by_cases hf : f < stop
    · simp only [sweepFreqs, if_pos hf, List.mem_cons] at hx
      rcases hx with rfl | hx
      · exact hf
      · exact ih (f * r) x hx
    · simp [sweepFreqs, if_neg hf] at hx

/-- With enough fuel, the loop emits exactly the indices `k` with
`f * r ^ k < stop`: it stops at the first `k` reaching the bound. -/
theorem sweepFreqs_length_iff (stop r : ℚ) (hr : 1 < r) :
    ∀ (n : ℕ) (f : ℚ), 0 < f → stop ≤ f * r ^ n →
      ∀ k : ℕ, k < (sweepFreqs stop r f n).length ↔ f * r ^ k < stop := by
  intro n
  induction n with
  | zero =>
    intro f h0 hn k
    simp only [pow_zero, mul_one] at hn
    simp only [sweepFreqs, List.length_nil]
    constructor
    · intro hk; exact absurd hk (Nat.not_lt_zero k)
    · intro hk
      exfalso
      have h1k : (1 : ℚ) ≤ r ^ k := one_le_pow₀ hr.le
      nlinarith
  | succ n ih =>
    intro f h0 hn k
    by_cases hf : f < stop
    · simp only [sweepFreqs, if_pos hf, List.length_cons]
      cases k with
      | zero => simpa using hf
      | succ k =>
        have h0' : 0 < f * r := by positivity
        have hn' : stop ≤ f * r * r ^ n := by
          calc stop ≤ f * r ^ (n + 1) := hn
          _ = f * r * r ^ n := by ring
        rw [Nat.succ_lt_succ_iff, ih (f * r) h0' hn' k]
        constructor
        · intro h; calc f * r ^ (k + 1) = f * r * r ^ k := by ring
            _ < stop := h
        · intro h; calc f * r * r ^ k = f * r ^ (k + 1) := by ring
            _ < stop := h
    · push_neg at hf
      simp only [sweepFreqs, if_neg (not_lt.mpr hf), List.length_nil]
      constructor
      · intro hk; exact absurd hk (Nat.not_lt_zero k)
      · intro hk
        exfalso
        have h1k : (1 : ℚ) ≤ r ^ k := one_le_pow₀ hr.le
        nlinarith

/-- Once the fuel bound covers the stop crossing, adding fuel does not change
the emitted list: the loop really terminates. -/
theorem sweepFreqs_stable (stop r : ℚ) (hr : 1 < r) :
    ∀ (n : ℕ) (f : ℚ), 0 < f → stop ≤ f * r ^ n →
      ∀ m : ℕ, sweepFreqs stop r f (n + m) = sweepFreqs stop r f n := by
  intro n
  induction n with
  | zero =>
    intro f _ hn m
    simp only [pow_zero, mul_one] at hn
    rw [sweepFreqs_nil_of_le stop r f hn, sweepFreqs_nil_of_le stop r f hn]
  | succ n ih =>
    intro f h0 hn m
    by_cases hf : f < stop
    · have heq : n + 1 + m = (n + m) + 1 := by omega
      rw [heq]
      simp only [sweepFreqs, if_pos hf]
      have h0' : 0 < f * r := by positivity
      have hn' : stop ≤ f * r * r ^ n := by
        calc stop ≤ f * r ^ (n + 1) := hn
        _ = f * r * r ^ n := by ring
      rw [ih (f * r) h0' hn' m]
    · push_neg at hf
      rw [sweepFreqs_nil_of_le stop r f hf, sweepFreqs_nil_of_le stop r f hf]

/-- With a step ratio at most one, every iteration keeps the frequency below
the stop bound, so the loop consumes all fuel: it never terminates. -/
theorem sweepFreqs_len_of_ratio_le_one (stop r : ℚ) (hrpos : 0 < r) (hr : r ≤ 1) :
    ∀ (n : ℕ) (f : ℚ), 0 < f → f < stop → (sweepFreqs stop r f n).length = n := by
  intro n
  induction n with
  | zero => intro f _ _; rfl
  | succ n ih =>
    intro f h0 hf
    simp only [sweepFreqs, if_pos hf, List.length_cons]
    rw [ih (f * r)]
    · positivity
    · calc f * r ≤ f * 1 := by nlinarith
      _ = f := mul_one f
      _ < stop := hf

end SweepLemmas

/-- C2: for every valid configuration (`0 < start`, `1 < ratio`) and fuel
covering the stop crossing, the emitted frequency list is strictly
increasing, its `k`-th element is `start * ratio ^ k`, every element is
strictly below the stop frequency, and a step `k` is emitted exactly when
`start * ratio ^ k < stop` — the loop stops at the first `k` reaching the
bound. -/
theorem sweep_freqs_spec (f stop r : ℚ) (n : ℕ) (h0 : 0 < f) (hr : 1 < r)
    (hn : stop ≤ f * r ^ n) :
    (∀ i j : ℕ, j < (sweepFreqs stop r f n).length → i < j →
      (sweepFreqs stop r f n).getD i 0 < (sweepFreqs stop r f n).getD j 0) ∧
    (∀ k : ℕ, k < (sweepFreqs stop r f n).length →
      (sweepFreqs stop r f n).getD k 0 = f * r ^ k) ∧
    (∀ x ∈ sweepFreqs stop r f n, x < stop) ∧
    (∀ k : ℕ, k < (sweepFreqs stop r f n).length ↔ f * r ^ k < stop) := by
  refine ⟨?_, sweepFreqs_getD stop r n f, sweepFreqs_mem_lt stop r n f,
    sweepFreqs_length_iff stop r hr n f h0 hn⟩
  intro i j hj hij
  rw [sweepFreqs_getD stop r n f i (lt_trans hij hj), sweepFreqs_getD stop r n f j hj]
  exact (mul_lt_mul_left h0).mpr (pow_lt_pow_right₀ hr hij)

/-- Witness for C2 at `start = 1`, `stop = 5`, `ratio = 2`, fuel 3: the list
is `[1, 2, 4]`; its entries at 0 and 2 are ordered and the entry at 2 is
`1 * 2 ^ 2`. -/
theorem sweep_freqs_spec_witness :
    (sweepFreqs 5 2 1 3).getD 0 0 < (sweepFreqs 5 2 1 3).getD 2 0 ∧
    (sweepFreqs 5 2 1 3).getD 2 0 = 1 * 2 ^ 2 :=
  ⟨(sweep_freqs_spec 1 5 2 3 (by norm_num) (by norm_num) (by norm_num)).1 0 2
      ((sweepFreqs_length_iff 5 2 (by norm_num) 3 1 (by norm_num) (by norm_num) 2).mpr
        (by norm_num)) (by norm_num),
   (sweep_freqs_spec 1 5 2 3 (by norm_num) (by norm_num) (by norm_num)).2.1 2
      ((sweepFreqs_length_iff 5 2 (by norm_num) 3 1 (by norm_num) (by norm_num) 2).mpr
        (by norm_num))⟩

/-- C9: for every positive start frequency and ratio above one the sweep loop
terminates — the frequency reaches the stop bound after finitely many
doublings, and past that point adding fuel leaves the emitted list
unchanged. -/
theorem sweep_terminates (f stop r : ℚ) (h0 : 0 < f) (hr : 1 < r) :
    ∃ n : ℕ, stop ≤ f * r ^ n ∧
      ∀ m : ℕ, sweepFreqs stop r f (n + m) = sweepFreqs stop r f n := by
  obtain ⟨n, hn⟩ := pow_unbounded_of_one_lt (stop / f) hr
  have hsn : stop ≤ f * r ^ n := by
    rw [div_lt_iff₀ h0] at hn
    nlinarith
  exact ⟨n, hsn, fun m => sweepFreqs_stable stop r hr n f h0 hsn m⟩

/-- Witness for C9 at `start = 1`, `stop = 5`, `ratio = 2`. -/
theorem sweep_terminates_witness :
    (0 : ℚ) < 1 ∧ (1 : ℚ) < 2 ∧
    ∃ n : ℕ, (5 : ℚ) ≤ 1 * 2 ^ n ∧
      ∀ m : ℕ, sweepFreqs 5 2 1 (n + m) = sweepFreqs 5 2 1 n :=
  ⟨by norm_num, by norm_num, sweep_terminates 1 5 2 (by norm_num) (by norm_num)⟩

/-- C8 (counterexample): invalid bounds do not make the program fail with a
`ConfigurationError` — no validation exists in the source. With
`stop = 10 ≤ start = 30` the loop body never runs and the sweep completes
normally with an empty record list, and with `step_ratio = 1` the loop
consumes every unit of fuel (here 7 iterations from 7 fuel), i.e. it never
terminates rather than raising an error. -/
theorem sweep_no_validation_cex :
    sweepFreqs 10 (21 / 20) 30 5 = [] ∧ (sweepFreqs 100 1 30 7).length = 7 :=
  ⟨sweepFreqs_nil_of_le 10 (21 / 20) 30 (by norm_num) 5,
   sweepFreqs_len_of_ratio_le_one 100 1 (by norm_num) (by norm_num) 7 30
     (by norm_num) (by norm_num)⟩

/-- C8 (amended): the source performs no validation of the sweep bounds.
A sweep with `stop ≤ start` terminates immediately with an empty record list
and no error of any kind, and a sweep with `0 < step_ratio ≤ 1` and
`start < stop` never terminates: its emitted list grows with the fuel
bound. -/
theorem sweep_no_validation :
    (∀ (f stop r : ℚ) (n : ℕ), stop ≤ f → sweepFreqs stop r f n = []) ∧
    (∀ (f stop r : ℚ) (n : ℕ), 0 < f → f < stop → 0 < r → r ≤ 1 →
      (sweepFreqs stop r f n).length = n) :=
  ⟨fun f stop r n h => sweepFreqs_nil_of_le stop r f h n,
   fun f stop r n h0 hf hrpos hr =>
     sweepFreqs_len_of_ratio_le_one stop r hrpos hr n f h0 hf⟩

/-- Witness for C8 at `stop = 7 ≤ start = 9` (empty sweep) and at
`start = 2 < stop = 50` with `ratio = 1` (all 6 fuel units consumed). -/
theorem sweep_no_validation_witness :
    sweepFreqs 7 3 9 4 = [] ∧ (sweepFreqs 50 1 2 6).length = 6 :=
  ⟨sweep_no_validation.1 9 7 3 4 (by norm_num),
   sweep_no_validation.2 2 50 1 6 (by norm_num) (by norm_num) (by norm_num)
     (by norm_num)⟩

/-- C10 (counterexample): with a step action that succeeds at the first two
frequencies (10 and 20) and raises `AcquisitionError` at the third (40), the
sweep's outcome is just the error; it is identical to the outcome of a sweep
whose very first step fails, so the two successfully accumulated records are
not made available to anything — the uncaught exception discards them and the
CSV write never runs. -/
theorem sweep_discard_cex :
    stepFail3 10 = Except.ok 10 ∧ stepFail3 20 = Except.ok 20 ∧
    runSweep stepFail3 100 2 10 6 = Except.error "AcquisitionError" ∧
    runSweep stepFail1 100 2 10 6 = Except.error "AcquisitionError" ∧
    runSweep stepFail3 100 2 10 6 = runSweep stepFail1 100 2 10 6 :=
  ⟨by norm_num [stepFail3], by norm_num [stepFail3],
   by norm_num [runSweep, stepFail3], by norm_num [runSweep, stepFail1],
   by norm_num [runSweep, stepFail3, stepFail1]⟩

/-- C10 (amended): a failing step aborts the whole sweep immediately — the
loop's result is exactly that step's error, with no skip-and-continue — but
the records accumulated before the failure are NOT made available: on abort
the result carries no record list at all. -/
theorem runSweep_abort {α : Type} (step : ℚ → Except String α) (stop r f : ℚ)
    (n : ℕ) (e : String) (hf : f < stop) (he : step f = Except.error e) :
    runSweep step stop r f (n + 1) = Except.error e ∧
    ∀ l : List α, runSweep step stop r f (n + 1) ≠ Except.ok l := by
  have habort : runSweep step stop r f (n + 1) = Except.error e := by
    simp only [runSweep, if_pos hf, he]
  exact ⟨habort, fun l hl => by rw [habort] at hl; exact Except.noConfusion hl⟩

/-- Witness for C10: a first-step failure at frequency 10 of a sweep to 100
aborts with `AcquisitionError` and yields no record list. -/
theorem runSweep_abort_witness :
    runSweep stepFail1 100 2 10 5 = Except.error "AcquisitionError" ∧
    runSweep stepFail1 100 2 10 5 ≠ Except.ok [] :=
  ⟨(runSweep_abort stepFail1 100 2 10 4 "AcquisitionError" (by norm_num) rfl).1,
   (runSweep_abort stepFail1 100 2 10 4 "AcquisitionError" (by norm_num) rfl).2 []⟩

section RmsLemmas

/-- Running the RMS/DC accumulation loop from an arbitrary starting state
adds the sum of squares, the sum, and the count of the traversed list. -/
theorem rmsAcc_spec :
    ∀ (vs : List ℝ) (a b : ℝ) (c : ℕ),
      vs.foldl (fun st v => (st.1 + v * v, st.2.1 + v, st.2.2 + 1)) (a, b, c)
        = (a + (vs.map fun v => v * v).sum, b + vs.sum, c + vs.length) := by
  intro vs
  induction vs with
  | nil => intro a b c; simp
  | cons v ws ih =>
    intro a b c
    simp only [List.foldl_cons, List.map_cons, List.sum_cons, List.length_cons]
    rw [ih]
    simp only [Prod.mk.injEq]
    exact ⟨by ring, by ring, by omega⟩

/-- The accumulator triple after the loop is exactly
(sum of squares, sum, length). -/
theorem rmsAcc_eq (vs : List ℝ) :
    rmsAcc vs = ((vs.map fun v => v * v).sum, vs.sum, vs.length) := by
  unfold rmsAcc
  rw [rmsAcc_spec]
  simp

/-- Auxiliary inequality for Cauchy-Schwarz on lists:
`2·v·Σw ≤ n·v² + Σw²`. -/
theorem two_mul_sum_le (v : ℝ) :
    ∀ vs : List ℝ,
      2 * v * vs.sum ≤ (vs.length : ℝ) * v ^ 2 + (vs.map fun w => w * w).sum := by
  intro vs
  induction vs with
  | nil => simp
  | cons w ws ih =>
    simp only [List.sum_cons, List.map_cons, List.length_cons]
    push_cast
    nlinarith [sq_nonneg (v - w)]

/-- Cauchy-Schwarz for a list against the all-ones vector:
`(Σv)² ≤ n · Σv²`. -/
theorem sq_sum_le (vs : List ℝ) :
    vs.sum ^ 2 ≤ (vs.length : ℝ) * (vs.map fun w => w * w).sum := by
  induction vs with
  | nil => simp
  | cons v ws ih =>
    simp only [List.sum_cons, List.map_cons, List.length_cons]
    push_cast
    nlinarith [two_mul_sum_le v ws]

end RmsLemmas

/-- C3: for every non-empty voltage sequence the loop of source lines 160-167
reports `sqrt(mean(v²)) − mean(v)` — the root-mean-square of the raw values
minus the DC offset — and this is a different function from the standard AC
RMS `sqrt(mean((v − mean v)²))`: the two disagree on the sequence `[0, 2]`. -/
theorem rms_formula :
    (∀ vs : List ℝ, vs ≠ [] →
      rmsLoop vs = Real.sqrt ((vs.map fun v => v * v).sum / (vs.length : ℝ))
        - vs.sum / (vs.length : ℝ)) ∧
    (∃ vs : List ℝ, vs ≠ [] ∧ rmsLoop vs ≠ acRMS vs) := by
  have hrw : ∀ vs : List ℝ,
      rmsLoop vs = Real.sqrt ((vs.map fun v => v * v).sum / (vs.length : ℝ))
        - vs.sum / (vs.length : ℝ) := by
    intro vs
    rw [rmsLoop, rmsAcc_eq]
  refine ⟨fun vs _ => hrw vs, ⟨[0, 2], by simp, ?_⟩⟩
  have h1 : rmsLoop [0, 2] = Real.sqrt 2 - 1 := by
    rw [hrw]
    norm_num
  have h2 : acRMS [0, 2] = 1 := by
    rw [acRMS]
    norm_num
  rw [h1, h2]
  intro h
  have h4 : Real.sqrt 2 = 2 := by linarith
  have h5 : Real.sqrt 2 ^ 2 = 2 := Real.sq_sqrt (by norm_num)
  rw [h4] at h5
  norm_num at h5

/-- Witness for C3 at the concrete sequence `[0, 2]`. -/
theorem rms_formula_witness :
    ([0, 2] : List ℝ) ≠ [] ∧
    rmsLoop [0, 2] = Real.sqrt ((([0, 2] : List ℝ).map fun v => v * v).sum /
      ((([0, 2] : List ℝ).length : ℕ) : ℝ))
      - ([0, 2] : List ℝ).sum / ((([0, 2] : List ℝ).length : ℕ) : ℝ) :=
  ⟨by simp, rms_formula.1 [0, 2] (by simp)⟩

/-- C5: for every non-empty captured voltage sequence, the per-channel value
stored as RMS in the record is non-negative: by Cauchy-Schwarz the mean is at
most the root of the mean square. -/
theorem rms_nonneg (vs : List ℝ) (h : vs ≠ []) : 0 ≤ rmsLoop vs := by
  have hrw : rmsLoop vs = Real.sqrt ((vs.map fun v => v * v).sum / (vs.length : ℝ))
      - vs.sum / (vs.length : ℝ) := by
    rw [rmsLoop, rmsAcc_eq]
  have hn : 0 < (vs.length : ℝ) := by
    exact_mod_cast List.length_pos.mpr h
  rw [hrw]
  rcases le_or_lt vs.sum 0 with hS | hS
  · have h1 : vs.sum / (vs.length : ℝ) ≤ 0 := by
      apply div_nonpos_of_nonpos_of_nonneg hS hn.le
    have h2 := Real.sqrt_nonneg ((vs.map fun v => v * v).sum / (vs.length : ℝ))
    linarith
  · have key : (vs.sum / (vs.length : ℝ)) ^ 2
        ≤ (vs.map fun v => v * v).sum / (vs.length : ℝ) := by
      rw [div_pow, div_le_div_iff₀ (by positivity) hn]
      nlinarith [sq_sum_le vs]
    have h3 : vs.sum / (vs.length : ℝ)
        ≤ Real.sqrt ((vs.map fun v => v * v).sum / (vs.length : ℝ)) := by
      rw [← Real.sqrt_sq (le_of_lt (div_pos hS hn))]
      exact Real.sqrt_le_sqrt key
    linarith

/-- Witness for C5 at the concrete sequence `[1]`. -/
theorem rms_nonneg_witness : ([1] : List ℝ) ≠ [] ∧ 0 ≤ rmsLoop [1] :=
  ⟨by simp, rms_nonneg [1] (by simp)⟩

/-- C4 (counterexample): at `phase1 = 0` and `phase2 = π` — both inside
`(-π, π]` — the raw difference is exactly `-π`; neither wrap branch fires, so
the result is `-π` itself, which lies outside the claimed half-open interval
`(-π, π]`. -/
theorem wrap_phase_cex :
    (0 : ℝ) ∈ Set.Ioc (-Real.pi) Real.pi ∧
    Real.pi ∈ Set.Ioc (-Real.pi) Real.pi ∧
    wrapPhase (0 - Real.pi) = -Real.pi ∧
    wrapPhase (0 - Real.pi) ∉ Set.Ioc (-Real.pi) Real.pi := by
  have hpi := Real.pi_pos
  have hw : wrapPhase (0 - Real.pi) = -Real.pi := by
    have hc1 : ¬(0 - Real.pi > Real.pi) := by linarith
    have hc2 : ¬(0 - Real.pi < -Real.pi) := by linarith
    simp only [wrapPhase]
    rw [if_neg hc1, if_neg hc2]
    ring
  refine ⟨⟨by linarith, by linarith⟩, ⟨by linarith, le_refl _⟩, hw, ?_⟩
  rw [hw]
  simp [Set.mem_Ioc]

/-- C4 (amended): for phases `phase1, phase2` in `(-π, π]`, the single-fold
wrap of `phase1 - phase2` always lands in the closed interval `[-π, π]`
(the lower endpoint `-π` is attained, so the half-open claim fails only
there). -/
theorem wrap_phase_range (p1 p2 : ℝ) (h1 : p1 ∈ Set.Ioc (-Real.pi) Real.pi)
    (h2 : p2 ∈ Set.Ioc (-Real.pi) Real.pi) :
    wrapPhase (p1 - p2) ∈ Set.Icc (-Real.pi) Real.pi := by
  obtain ⟨h1l, h1r⟩ := h1
  obtain ⟨h2l, h2r⟩ := h2
  have hpi := Real.pi_pos
  simp only [wrapPhase, Set.mem_Icc]
  split_ifs with ha hb hb <;> constructor <;> linarith

/-- Witness for C4 at `phase1 = phase2 = π`. -/
theorem wrap_phase_range_witness :
    Real.pi ∈ Set.Ioc (-Real.pi) Real.pi ∧
    wrapPhase (Real.pi - Real.pi) ∈ Set.Icc (-Real.pi) Real.pi :=
  ⟨⟨by linarith [Real.pi_pos], le_refl _⟩,
   wrap_phase_range Real.pi Real.pi ⟨by linarith [Real.pi_pos], le_refl _⟩
     ⟨by linarith [Real.pi_pos], le_refl _⟩⟩

/-- C7: when the reference channel RMS (`rms2`) is zero, the record-building
step fails with Python's `ZeroDivisionError` — float division by zero raises
in Python — and no record (in particular no `inf`/`NaN` gain) is produced. -/
theorem gain_zero_div (freq rms1 rms2 dphase : ℝ) (h : rms2 = 0) :
    appendRecord freq rms1 rms2 dphase = Except.error "ZeroDivisionError" ∧
    ∀ row : List ℝ, appendRecord freq rms1 rms2 dphase ≠ Except.ok row := by
  have he : appendRecord freq rms1 rms2 dphase = Except.error "ZeroDivisionError" := by
    simp [appendRecord, h]
  exact ⟨he, fun row hrow => by rw [he] at hrow; exact Except.noConfusion hrow⟩

/-- Witness for C7 at `rms2 = 0`. -/
theorem gain_zero_div_witness :
    appendRecord 1 1 0 0 = Except.error "ZeroDivisionError" ∧
    appendRecord 1 1 0 0 ≠ Except.ok [1, 1, 0, 1 / 0, 0] :=
  ⟨(gain_zero_div 1 1 0 0 rfl).1, (gain_zero_div 1 1 0 0 rfl).2 [1, 1, 0, 1 / 0, 0]⟩

section ArgmaxLemmas

variable {α : Type} [LinearOrder α]

/-- Shifting a starting element out of a max fold. -/
theorem foldl_max_max :
    ∀ (l : List α) (a b : α), l.foldl max (max a b) = max a (l.foldl max b) := by
  intro l
  induction l with
  | nil => intro a b; rfl
  | cons z l ih =>
    intro a b
    simp only [List.foldl_cons]
    rw [max_assoc, ih]

/-- Unfolding `listMax` over a cons cell. -/
theorem listMax_cons (x y : α) (ys : List α) :
    listMax x (y :: ys) = max x (listMax y ys) := by
  simp only [listMax, List.foldl_cons]
  exact foldl_max_max ys x y

/-- Every element of `x :: l` is at most `listMax x l`. -/
theorem le_listMax :
    ∀ (l : List α) (x a : α), a ∈ x :: l → a ≤ listMax x l := by
  intro l
  induction l with
  | nil =>
    intro x a ha
    obtain rfl : a = x := by simpa using ha
    exact le_refl a
  | cons y ys ih =>
    intro x a ha
    rw [listMax_cons]
    rcases List.mem_cons.mp ha with rfl | ha'
    · exact le_max_left a (listMax y ys)
    · exact le_trans (ih y a ha') (le_max_right x (listMax y ys))

/-- The argmax index of a non-empty list is in bounds. -/
theorem argmaxIdx_lt_length :
    ∀ l : List α, l ≠ [] → argmaxIdx l < l.length := by
  intro l
  induction l with
  | nil => intro h; exact absurd rfl h
  | cons x xs ih =>
    intro _
    cases xs with
    | nil => simp [argmaxIdx]
    | cons y ys =>
      simp only [argmaxIdx, List.length_cons]
      split_ifs with h
      · exact Nat.succ_lt_succ (ih (List.cons_ne_nil y ys))
      · exact Nat.succ_pos _

/-- The element at the argmax index is the maximum of the list. -/
theorem argmaxIdx_getD (d : α) :
    ∀ (l : List α) (x : α), (x :: l).getD (argmaxIdx (x :: l)) d = listMax x l := by
  intro l
  induction l with
  | nil => intro x; rfl
  | cons y ys ih =>
    intro x
    rw [listMax_cons]
    simp only [argmaxIdx]
    split_ifs with h
    · rw [List.getD_cons_succ, ih y, max_eq_right h.le]
    · rw [List.getD_cons_zero, max_eq_left (not_lt.mp h)]

end ArgmaxLemmas

section GetDLemmas

/-- An in-bounds `getD` is an element of the list. -/
theorem getD_mem {α : Type} (d : α) :
    ∀ (l : List α) (i : ℕ), i < l.length → l.getD i d ∈ l := by
  intro l
  induction l with
  | nil => intro i hi; simp at hi
  | cons x xs ih =>
    intro i hi
    cases i with
    | zero => simp
    | succ i =>
      simp only [List.getD_cons_succ]
      exact List.mem_cons_of_mem x (ih i (by simpa using hi))

/-- `getD` on a mapped range evaluates the function. -/
theorem getD_map_range (f : ℕ → ℝ) (m i : ℕ) (hi : i < m) (d : ℝ) :
    ((List.range m).map f).getD i d = f i := by
  simp [List.getD_eq_getElem?_getD, List.getElem?_map, List.getElem?_range hi]

/-- `getD` after dropping the first element shifts the index by one. -/
theorem getD_drop_one {α : Type} (l : List α) (i : ℕ) (d : α) :
    (l.drop 1).getD i d = l.getD (i + 1) d := by
  cases l with
  | nil => simp
  | cons x xs => simp

end GetDLemmas

/-- C6: for every capture of at least 4 samples, the fundamental is the bin
of maximum `N`-normalized FFT magnitude over the positive-frequency bins
`[1, N/2)` excluding the DC bin 0 — the selected index lies in `[1, N/2)`
and dominates the magnitude of every bin in that range — and the recorded
fundamental magnitude and phase are taken at exactly that bin. -/
theorem fundamental_spec (v : List ℝ) (h : 4 ≤ v.length) :
    1 ≤ fundamentalIndex v ∧ fundamentalIndex v < v.length / 2 ∧
    (∀ jj : ℕ, 1 ≤ jj → jj < v.length / 2 →
      Complex.abs (dft v jj) / (v.length : ℝ)
        ≤ Complex.abs (dft v (fundamentalIndex v)) / (v.length : ℝ)) ∧
    fundamentalMagnitude v
      = Complex.abs (dft v (fundamentalIndex v)) / (v.length : ℝ) ∧
    fundamentalPhase v = Complex.arg (dft v (fundamentalIndex v)) := by
  have hM2 : 2 ≤ v.length / 2 := by omega
  have hlen_mag : (fftMagList v).length = v.length / 2 := by
    simp [fftMagList]
  have hlen_ph : (fftPhaseList v).length = v.length / 2 := by
    simp [fftPhaseList]
  have hdroplen : ((fftMagList v).drop 1).length = v.length / 2 - 1 := by
    simp [hlen_mag]
  have hdropne : (fftMagList v).drop 1 ≠ [] := by
    have hpos : 0 < ((fftMagList v).drop 1).length := by
      rw [hdroplen]; omega
    exact List.length_pos.mp hpos
  set j := argmaxIdx ((fftMagList v).drop 1) with hj_def
  have hj : j < v.length / 2 - 1 := by
    have hlt := argmaxIdx_lt_length _ hdropne
    rw [hdroplen] at hlt
    exact hlt
  have hidx : fundamentalIndex v = j + 1 := rfl
  have hg : ∀ i : ℕ, i < v.length / 2 →
      (fftMagList v).getD i 0 = Complex.abs (dft v i) / (v.length : ℝ) := by
    intro i hi
    exact getD_map_range _ _ i hi 0
  have hgp : ∀ i : ℕ, i < v.length / 2 →
      (fftPhaseList v).getD i 0 = Complex.arg (dft v i) := by
    intro i hi
    exact getD_map_range _ _ i hi 0
  refine ⟨by rw [hidx]; omega, by rw [hidx]; omega, ?_, ?_, ?_⟩
  · intro jj h1 h2
    obtain ⟨i, rfl⟩ : ∃ i, jj = i + 1 := ⟨jj - 1, by omega⟩
    have hi : i < v.length / 2 - 1 := by omega
    obtain ⟨x, xs, hx⟩ : ∃ x xs, (fftMagList v).drop 1 = x :: xs := by
      cases hd : (fftMagList v).drop 1 with
      | nil => exact absurd hd hdropne
      | cons x xs => exact ⟨x, xs, rfl⟩
    have e1 : ((fftMagList v).drop 1).getD i 0
        = Complex.abs (dft v (i + 1)) / (v.length : ℝ) := by
      rw [getD_drop_one]
      exact hg (i + 1) (by omega)
    have e2 : ((fftMagList v).drop 1).getD j 0
        = Complex.abs (dft v (j + 1)) / (v.length : ℝ) := by
      rw [getD_drop_one]
      exact hg (j + 1) (by omega)
    rw [hidx, ← e1, ← e2]
    have hj_eq : j = argmaxIdx (x :: xs) := by rw [hj_def, hx]
    have hmax : ((fftMagList v).drop 1).getD j 0 = listMax x xs := by
      rw [hx, hj_eq]
      exact argmaxIdx_getD 0 xs x
    have hmem : ((fftMagList v).drop 1).getD i 0 ∈ (fftMagList v).drop 1 :=
      getD_mem 0 _ i (by rw [hdroplen]; omega)
    rw [hmax, hx]
    rw [hx] at hmem
    exact le_listMax xs x _ hmem
  · show (fftMagList v).getD (fundamentalIndex v) 0 = _
    rw [hidx]
    exact hg (j + 1) (by omega)
  · show (fftPhaseList v).getD (fundamentalIndex v) 0 = _
    rw [hidx]
    exact hgp (j + 1) (by omega)

/-- Witness for C6 at the concrete 4-sample capture `[1, 0, 0, 0]`. -/
theorem fundamental_spec_witness :
    4 ≤ ([1, 0, 0, 0] : List ℝ).length ∧
    1 ≤ fundamentalIndex [1, 0, 0, 0] ∧
    fundamentalIndex [1, 0, 0, 0] < ([1, 0, 0, 0] : List ℝ).length / 2 :=
  ⟨by decide, (fundamental_spec [1, 0, 0, 0] (by decide)).1,
   (fundamental_spec [1, 0, 0, 0] (by decide)).2.1⟩

